import Mathlib

/-!
Verification of the crossword CSP solver in `src/crossword/generate.py`
(class `CrosswordCreator`).

The Python module imports the `Crossword` structure model from `crossword.py`,
which is not part of the sources; its data (the variable set, the word list,
the symmetric overlap table and the derived neighbor relation) is modelled
from the spec as the structure `Crossword` below.  Everything else (`revise`,
`ac3`, `enforce_node_consistency`, `consistent`, `order_domain_values`,
`select_unassigned_variable`, `backtrack`, `solve`) is translated from
`generate.py`.

Conventions of the embedding:
* Python sets and dicts are embedded as lists (domains, assignments); the
  set/dict laws the code relies on (no duplicate elements, no duplicate
  keys) appear as `Nodup` hypotheses.
* Python's unbounded loops and recursion are embedded with an explicit fuel
  parameter; running out of fuel yields `none` / an error value, and a
  separate theorem shows a concrete fuel bound is always sufficient.
* String indexing `w[i]` is embedded as `List.getD i blankChar`; the two
  agree whenever the index is in range, which the callers ensure.
* A Python exception is embedded as `Except.error` with the exception name.
-/

inductive Direction
  | across
  | down
deriving DecidableEq, Repr

/-- Modelled from the spec: a `Variable` identifies one crossword slot by
start row `i`, start column `j`, `length` and `direction`; two variables are
equal only if all four attributes match. -/
structure Variable where
  i : Nat
  j : Nat
  length : Nat
  direction : Direction
deriving DecidableEq, Repr

abbrev Word := List Char

abbrev Domains := Variable → List Word

abbrev Arc := Variable × Variable

abbrev Assignment := List (Variable × Word)

/-- Default character used by the total embedding of string indexing. -/
def blankChar : Char := 'A'

/-- Modelled from the spec: the structure model consumed by the solver —
the set of variables, the word list, and the overlap table mapping pairs of
distinct variables to their offset pair.  The table is embedded as a finite
association list; absent keys mean "no overlap".  (The source attribute is
named `variables`; that word is reserved in Lean, so the field is `vars`.) -/
structure Crossword where
  vars : List Variable
  words : List Word
  overlapTable : List ((Variable × Variable) × (Nat × Nat))

/-- Modelled from the spec: overlap lookup (`self.crossword.overlaps[x, y]`). -/
def Crossword.overlaps (c : Crossword) (x y : Variable) : Option (Nat × Nat) :=
  (c.overlapTable.find? (fun e => decide (e.1 = (x, y)))).map (fun e => e.2)

/-- Modelled from the spec: `y` is a neighbor of `x` iff an overlap exists
between them (`self.crossword.neighbors(x)`). -/
def Crossword.neighbors (c : Crossword) (x : Variable) : List Variable :=
  c.vars.filter (fun y => (c.overlaps x y).isSome)

/-- Well-formedness of the structure model, as the spec states it: the
variable set has no duplicates, overlaps relate distinct variables only, and
the table is symmetric (`(x,y) -> (i,j)` implies `(y,x) -> (j,i)`). -/
def Crossword.WF (c : Crossword) : Prop :=
  c.vars.Nodup ∧
  (∀ e ∈ c.overlapTable, e.1.1 ≠ e.1.2) ∧
  (∀ e ∈ c.overlapTable, c.overlaps e.1.2 e.1.1 = some (e.2.2, e.2.1))

/-! ### Generic lemmas about remove-while-iterating folds

`enforce_node_consistency` and `revise` both iterate over a snapshot of a
set while removing elements from the live set.  `eraseFold q l acc` models
this: iterate `l`, erasing from `acc` every element satisfying `q`. -/

def eraseFold (q : Word → Bool) (l acc : List Word) : List Word :=
  l.foldl (fun a w => if q w then a.erase w else a) acc

/-! ### `revise` (generate.py lines 114-156) -/

/-- Embeds the inner counting loop of `revise`: holds exactly when the
source's `possible_y_words` count is zero, i.e. no word of `dy` agrees
with `w` at the overlap offsets `(i, j)`. -/
def noSupport (dy : List Word) (i j : Nat) (w : Word) : Bool :=
  decide (dy.countP (fun v2 => decide (w.getD i blankChar = v2.getD j blankChar)) = 0)

/-- Embeds `CrosswordCreator.revise(x, y)`: if no overlap exists, return
"no change"; otherwise iterate a snapshot of `domain[x]`, removing every
word with no possible corresponding value in `domain[y]`, and report
whether a removal was made.  The mutated domain store is returned
explicitly. -/
def revise (c : Crossword) (dom : Domains) (x y : Variable) : Domains × Bool :=
  match c.overlaps x y with
  | none => (dom, false)
  | some (i, j) =>
    let r := (dom x).foldl
      (fun acc v1 => if noSupport (dom y) i j v1 then (acc.1.erase v1, true) else acc)
      (dom x, false)
    (Function.update dom x r.1, r.2)

/-! ### `ac3` (generate.py lines 158-198) -/

/-- The arcs `(z, x)` re-enqueued after a successful revision of `x`
against `y`: every neighbor of `x` other than `y`. -/
def enqueueArcs (c : Crossword) (x y : Variable) : List Arc :=
  ((c.neighbors x).filter (fun z => decide (z ≠ y))).map (fun z => (z, x))

/-- The default worklist: all ordered pairs of distinct variables, in
iteration order of the domain-store keys. -/
def defaultArcs (c : Crossword) : List Arc :=
  c.vars.flatMap (fun x => (c.vars.filter (fun y => decide (x ≠ y))).map (fun y => (x, y)))

/-- Embeds the worklist loop of `CrosswordCreator.ac3`, with fuel: pop an
arc `(x, y)`, call `revise`; on a revision, fail if `domain[x]` emptied,
otherwise re-enqueue the neighbor arcs; return `true` when the queue
empties.  `none` means the fuel ran out (the real loop just keeps going). -/
def ac3Loop (c : Crossword) : Nat → List Arc → Domains → Option (Bool × Domains)
  | 0, _, _ => none
  | _ + 1, [], dom => some (true, dom)
  | fuel + 1, (x, y) :: rest, dom =>
    match revise c dom x y with
    | (dom1, true) =>
      if (dom1 x).length = 0 then some (false, dom1)
      else ac3Loop c fuel (rest ++ enqueueArcs c x y) dom1
    | (dom1, false) => ac3Loop c fuel rest dom1

/-- Embeds `CrosswordCreator.ac3()` with the default arc list (the only
form the program can run; see `ac3WithArcs` for the explicit-arcs path). -/
def ac3 (c : Crossword) (fuel : Nat) (dom : Domains) : Option (Bool × Domains) :=
  ac3Loop c fuel (defaultArcs c) dom

/-- The word `w` of `domain[x]` has a possible corresponding value in
`domain[y]` at every overlap of the pair `(x, y)` — vacuously true when the
pair does not overlap. -/
def arcOK (c : Crossword) (dom : Domains) (x y : Variable) : Prop :=
  ∀ i j, c.overlaps x y = some (i, j) →
    ∀ w ∈ dom x, ∃ w2 ∈ dom y, w.getD i blankChar = w2.getD j blankChar

/-- Worklist invariant of the AC-3 loop: every directed pair of variables
not waiting in the queue is already arc consistent. -/
def QueueInv (c : Crossword) (dom : Domains) (q : List Arc) : Prop :=
  ∀ x ∈ c.vars, ∀ y ∈ c.vars, (x, y) ∉ q → arcOK c dom x y

/-! ### Termination of the AC-3 worklist loop -/

/-- Total number of words across all domains of the puzzle's variables. -/
def totalSize (c : Crossword) (dom : Domains) : Nat :=
  (c.vars.map (fun v => (dom v).length)).sum

/-- A fuel bound sufficient for `ac3` on a given store. -/
def ac3Bound (c : Crossword) (dom : Domains) : Nat :=
  (defaultArcs c).length + totalSize c dom * (c.vars.length + 1) + 1

/-! ### `enforce_node_consistency` (generate.py lines 99-112) -/

/-- Embeds `CrosswordCreator.enforce_node_consistency()`: for every
variable, iterate a snapshot of its domain and remove the words whose
length differs from the variable's length. -/
def encStep (v : Variable) (d : List Word) : List Word :=
  d.foldl (fun acc w => if decide (¬ w.length = v.length) then acc.erase w else acc) d

def enforce_node_consistency (c : Crossword) (dom : Domains) : Domains :=
  c.vars.foldl (fun d v => Function.update d v (encStep v (d v))) dom

/-! ### Assignments and `consistent` (generate.py lines 200-244) -/

/-- Dictionary lookup `assignment[v]` / `v in assignment`. -/
def lookupA (a : Assignment) (v : Variable) : Option Word :=
  (a.find? (fun p => decide (p.1 = v))).map (fun p => p.2)

def isAssigned (a : Assignment) (v : Variable) : Bool :=
  (lookupA a v).isSome

/-- Embeds `CrosswordCreator.assignment_complete`: the assignment has as
many entries as the domain store has variables. -/
def assignment_complete (c : Crossword) (a : Assignment) : Bool :=
  decide (c.vars.length = a.length)

/-- Embeds `CrosswordCreator.consistent`: reject duplicated words, then
length mismatches, then overlap disagreements between assigned neighbors.
(The inner `none` branches are unreachable for a well-formed model: a
neighbor always has an overlap, and Python would raise there.) -/
def consistent (c : Crossword) (a : Assignment) : Bool :=
  ((a.map (fun p => p.2)).all
    (fun w => decide ((a.map (fun p => p.2)).countP (fun w2 => decide (w2 = w)) = 1))) &&
  (a.all (fun p => decide (p.1.length = p.2.length))) &&
  (a.all (fun p => (c.neighbors p.1).all (fun n =>
    match lookupA a n with
    | none => true
    | some w2 =>
      match c.overlaps p.1 n with
      | none => true
      | some (i, j) => decide (p.2.getD i blankChar = w2.getD j blankChar))))

/-! ### Search heuristics (generate.py lines 248-356) -/

/-- Embeds the `eliminations` count of `order_domain_values` for one
candidate word `w`: over each not-yet-assigned neighbor, add
`options_before - options_after`, where `options_after` counts (as the
source does) the neighbor's words that DISAGREE with `w` at the overlap.
(The `none` overlap branch is unreachable for neighbors.) -/
def elimCount (c : Crossword) (dom : Domains) (a : Assignment) (v : Variable)
    (w : Word) : Nat :=
  (c.neighbors v).foldl
    (fun acc n =>
      if isAssigned a n then acc
      else
        match c.overlaps v n with
        | none => acc
        | some (i, j) =>
          acc + ((dom n).length
            - (dom n).countP (fun o => decide (¬ w.getD i blankChar = o.getD j blankChar))))
    0

/-- Embeds `CrosswordCreator.order_domain_values`: list the domain of
`var`, attach each word's `eliminations` count, sort ascending by that
count, and return the words.  Python's `sorted` is a stable sort on the
score, and every stable sort by one key produces the same list, so the
stable `List.insertionSort` reproduces it exactly. -/
def order_domain_values (c : Crossword) (dom : Domains) (v : Variable)
    (a : Assignment) : List Word :=
  (List.insertionSort (fun p q => p.2 ≤ q.2)
    ((dom v).map (fun w => (w, elimCount c dom a v w)))).map (fun p => p.1)

/-- Embeds `CrosswordCreator.select_unassigned_variable`: gather the
unassigned variables, find the minimum remaining-domain size (starting
from the sentinel `999999999`), collect the variables attaining it; if
exactly one, return it, otherwise scan for one with strictly more
neighbors than the running best, starting from `n = 0, var = None`. -/
def select_unassigned_variable (c : Crossword) (dom : Domains) (a : Assignment) :
    Option Variable :=
  let possible := c.vars.filter (fun x => !isAssigned a x)
  let l := possible.foldl (fun l v => if (dom v).length < l then (dom v).length else l)
    999999999
  let lowest := possible.filter (fun v => decide ((dom v).length = l))
  if lowest.length = 1 then lowest.head?
  else
    (lowest.foldl
      (fun p v => if p.1 < (c.neighbors v).length then ((c.neighbors v).length, some v) else p)
      ((0 : Nat), (none : Option Variable))).2

/-! ### Backtracking search and the top-level `solve`
(generate.py lines 91-97 and 358-391) -/

/-- Embeds the candidate-word loop inside `CrosswordCreator.backtrack`:
tentatively extend the assignment, keep the extension only if
`consistent`, recurse (through `bt`), propagate a complete solution or an
exception, and undo the extension otherwise. -/
def tryWords (c : Crossword) (bt : Assignment → Except String (Option Assignment))
    (v : Variable) (a : Assignment) : List Word → Except String (Option Assignment)
  | [] => Except.ok none
  | w :: ws =>
    if consistent c (a ++ [(v, w)]) then
      match bt (a ++ [(v, w)]) with
      | Except.ok none => tryWords c bt v a ws
      | r => r
    else tryWords c bt v a ws

/-- Embeds `CrosswordCreator.backtrack`, with fuel for the recursion.  A
`select_unassigned_variable` result of `None` is passed by the source to
`order_domain_values`, which evaluates `self.domains[None]` and raises
`KeyError`; the embedding surfaces that as `Except.error "KeyError"`. -/
def backtrack (c : Crossword) (dom : Domains) : Nat → Assignment → Except String (Option Assignment)
  | 0, _ => Except.error "fuel"
  | fuel + 1, a =>
    if assignment_complete c a then Except.ok (some a)
    else
      match select_unassigned_variable c dom a with
      | none => Except.error "KeyError"
      | some v => tryWords c (fun a2 => backtrack c dom fuel a2) v a
          (order_domain_values c dom v a)

/-- Embeds `CrosswordCreator.solve`: initial domains give every variable
the full word list; run `enforce_node_consistency`, run `ac3` (its boolean
result is discarded by the source), then `backtrack` on the empty
assignment. -/
def solve (c : Crossword) (fuel : Nat) : Except String (Option Assignment) :=
  match ac3Loop c fuel (defaultArcs c) (enforce_node_consistency c (fun _ => c.words)) with
  | none => Except.error "fuel"
  | some r => backtrack c r.2 fuel []

/-- Embeds the `arcs` parameter handling of `CrosswordCreator.ac3`.  When
`arcs` is supplied, line 175 of the source reads `queue = deque` — binding
the `deque` CLASS, not a new instance — so the very next operation on
`queue` (`queue.append(arc)`, or `len(queue)` for an empty `arcs`) raises
`TypeError`; the embedding surfaces that as `Except.error "TypeError"`. -/
def ac3WithArcs (c : Crossword) (fuel : Nat) (arcs : Option (List Arc))
    (dom : Domains) : Except String (Bool × Domains) :=
  match arcs with
  | none =>
    match ac3Loop c fuel (defaultArcs c) dom with
    | none => Except.error "fuel"
    | some r => Except.ok r
  | some _ => Except.error "TypeError"

instance (c : Crossword) : Decidable c.WF := by
  unfold Crossword.WF
  exact inferInstance

/-! ### Concrete instances used by the claim theorems and witnesses -/

/-- Two crossing length-3 slots (the spec's end-to-end scenario A). -/
def vA1 : Variable := ⟨0, 0, 3, Direction.across⟩

def vA2 : Variable := ⟨0, 0, 3, Direction.down⟩

def wordsA : List Word := [['c','a','t'], ['c','a','r'], ['d','o','g']]

def cA : Crossword := ⟨[vA1, vA2], wordsA, [((vA1, vA2), (0, 0)), ((vA2, vA1), (0, 0))]⟩

def domA : Domains := fun _ => wordsA

/-- The store produced by a successful `ac3` run on `cA`. -/
def domA2 : Domains := ((ac3 cA 20 domA).getD (false, domA)).2

/-- Two disjoint (never overlapping) length-3 slots. -/
def vC1 : Variable := ⟨0, 0, 3, Direction.across⟩

def vC2 : Variable := ⟨5, 5, 3, Direction.across⟩

def cC : Crossword := ⟨[vC1, vC2], [['c','a','t'], ['d','o','g']], []⟩

def domC : Domains := fun _ => [['c','a','t'], ['d','o','g']]

/-- A store on `cC` in which the neighborless `vC1` has an empty domain. -/
def domE : Domains := fun v => if v = vC1 then [] else [['c','a','t']]

/-- Two crossing length-1 slots for the value-ordering heuristic. -/
def vD1 : Variable := ⟨0, 0, 1, Direction.across⟩

def vD2 : Variable := ⟨0, 0, 1, Direction.down⟩

def cD : Crossword := ⟨[vD1, vD2], [['a'], ['b']], [((vD1, vD2), (0, 0)), ((vD2, vD1), (0, 0))]⟩

def domD : Domains := fun v => if v = vD1 then [['a'], ['b']] else [['a']]

def asgA : Assignment := [(vA1, ['c','a','t']), (vA2, ['c','a','r'])]

/-- The degenerate crossword with zero variables. -/
def cEmpty : Crossword := ⟨[], [], []⟩

/-! ## Theorems -/

theorem Crossword.overlaps_mem {c : Crossword} {x y : Variable} {p : Nat × Nat}
    (h : c.overlaps x y = some p) : ((x, y), p) ∈ c.overlapTable := by
  unfold Crossword.overlaps at h
  cases hf : c.overlapTable.find? (fun e => decide (e.1 = (x, y))) with
  | none => rw [hf] at h; cases h
  | some e =>
    rw [hf] at h
    have hkey : e.1 = (x, y) := by simpa using List.find?_some hf
    have hval : e.2 = p := by simpa using h
    have hmem := List.mem_of_find?_eq_some hf
    have he : e = ((x, y), p) := by
      rw [← hkey, ← hval]
    rwa [he] at hmem

theorem Crossword.WF.overlaps_symm {c : Crossword} (hwf : c.WF) {x y : Variable}
    {i j : Nat} (h : c.overlaps x y = some (i, j)) : c.overlaps y x = some (j, i) :=
  hwf.2.2 _ (Crossword.overlaps_mem h)

theorem Crossword.WF.overlaps_ne {c : Crossword} (hwf : c.WF) {x y : Variable}
    {p : Nat × Nat} (h : c.overlaps x y = some p) : x ≠ y :=
  hwf.2.1 _ (Crossword.overlaps_mem h)

theorem Crossword.overlaps_self {c : Crossword} (hwf : c.WF) (x : Variable) :
    c.overlaps x x = none := by
  cases h : c.overlaps x x with
  | none => rfl
  | some p => exact absurd rfl (hwf.overlaps_ne h)

theorem Crossword.mem_neighbors {c : Crossword} {x y : Variable} :
    y ∈ c.neighbors x ↔ y ∈ c.vars ∧ (c.overlaps x y).isSome := by
  simp [Crossword.neighbors]

theorem eraseFold_sublist (q : Word → Bool) :
    ∀ (l acc : List Word), l.Sublist acc → acc.Nodup →
      eraseFold q l acc = acc.filter (fun w => !q w || decide (w ∉ l))
  | [], acc, _, _ => by
    unfold eraseFold
    simp only [List.foldl_nil]
    exact (List.filter_eq_self.mpr (fun a _ => by simp)).symm
  | w :: l, acc, hsub, hnd => by
    have hstep : eraseFold q (w :: l) acc = eraseFold q l (if q w then acc.erase w else acc) :=
      rfl
    rw [hstep]
    by_cases hq : q w = true
    · rw [if_pos hq]
      have hsub' : l.Sublist (acc.erase w) := by
        have h := hsub.erase w
        rwa [List.erase_cons_head] at h
      rw [eraseFold_sublist q l (acc.erase w) hsub' (hnd.erase w)]
      rw [hnd.erase_eq_filter w, List.filter_filter]
      refine List.filter_congr (fun x _ => ?_)
      by_cases hxw : x = w
      · subst hxw
        simp [hq]
      · simp [hxw, hq]
    · rw [if_neg hq]
      have hqf : q w = false := by simpa using hq
      rw [eraseFold_sublist q l acc (List.sublist_of_cons_sublist hsub) hnd]
      refine List.filter_congr (fun x _ => ?_)
      by_cases hxw : x = w
      · subst hxw
        simp [hqf]
      · simp [hxw]

theorem eraseFold_self (q : Word → Bool) (l : List Word) (hnd : l.Nodup) :
    eraseFold q l l = l.filter (fun w => !q w) := by
  rw [eraseFold_sublist q l l (List.Sublist.refl l) hnd]
  exact List.filter_congr (fun x hx => by simp [hx])

/-- The flagged fold used by `revise`: erase every element satisfying `q`
from the live set while iterating the snapshot, recording in the flag
whether any erasure happened. -/
theorem flagFold_eq (q : Word → Bool) :
    ∀ (l : List Word) (acc : List Word) (b : Bool),
      l.foldl (fun ac w => if q w then (ac.1.erase w, true) else ac) (acc, b)
        = (eraseFold q l acc, b || l.any q)
  | [], acc, b => by simp [eraseFold]
  | w :: l, acc, b => by
    have hstep : (w :: l).foldl (fun ac w => if q w then (ac.1.erase w, true) else ac) (acc, b)
        = l.foldl (fun ac w => if q w then (ac.1.erase w, true) else ac)
            (if q w then (acc.erase w, true) else (acc, b)) := rfl
    have hstep2 : eraseFold q (w :: l) acc = eraseFold q l (if q w then acc.erase w else acc) :=
      rfl
    rw [hstep, hstep2]
    by_cases hq : q w = true
    · rw [if_pos hq, if_pos hq, flagFold_eq q l (acc.erase w) true]
      simp [hq]
    · have hqf : q w = false := by simpa using hq
      rw [if_neg hq, if_neg hq, flagFold_eq q l acc b]
      simp [hqf]

theorem revise_none {c : Crossword} {dom : Domains} {x y : Variable}
    (h : c.overlaps x y = none) : revise c dom x y = (dom, false) := by
  unfold revise
  rw [h]

theorem revise_some {c : Crossword} {dom : Domains} {x y : Variable} {i j : Nat}
    (h : c.overlaps x y = some (i, j)) (hnd : (dom x).Nodup) :
    revise c dom x y =
      (Function.update dom x ((dom x).filter (fun w => !noSupport (dom y) i j w)),
       (dom x).any (noSupport (dom y) i j)) := by
  unfold revise
  rw [h]
  simp only
  rw [flagFold_eq, eraseFold_self _ _ hnd]
  simp

/-- If `revise` made no revision, the domain store is unchanged. -/
theorem revise_snd_false {c : Crossword} {dom : Domains} {x y : Variable}
    (hnd : (dom x).Nodup) (h : (revise c dom x y).2 = false) :
    (revise c dom x y).1 = dom := by
  cases hov : c.overlaps x y with
  | none => rw [revise_none hov]
  | some p =>
    obtain ⟨i, j⟩ := p
    rw [revise_some hov hnd] at h ⊢
    simp only at h ⊢
    have : (dom x).filter (fun w => !noSupport (dom y) i j w) = dom x := by
      refine List.filter_eq_self.mpr (fun w hw => ?_)
      simp only [List.any_eq_false] at h
      have := h w hw
      simp only [Bool.not_eq_true] at this
      simp [this]
    rw [this, Function.update_eq_self]

/-- If `revise` made a revision, the overlap exists (hence `x ≠ y` under a
well-formed structure model). -/
theorem revise_snd_true_overlap {c : Crossword} {dom : Domains} {x y : Variable}
    (h : (revise c dom x y).2 = true) :
    ∃ i j, c.overlaps x y = some (i, j) := by
  cases hov : c.overlaps x y with
  | none => rw [revise_none hov] at h; cases h
  | some p =>
    obtain ⟨i, j⟩ := p
    exact ⟨i, j, rfl⟩

theorem mem_defaultArcs {c : Crossword} {x y : Variable} :
    (x, y) ∈ defaultArcs c ↔ x ∈ c.vars ∧ y ∈ c.vars ∧ x ≠ y := by
  unfold defaultArcs
  simp only [List.mem_flatMap, List.mem_map, List.mem_filter]
  constructor
  · rintro ⟨a, ha, b, ⟨hb, hab⟩, heq⟩
    obtain ⟨h1, h2⟩ := Prod.mk.injEq .. ▸ heq
    subst h1; subst h2
    exact ⟨ha, hb, by simpa using hab⟩
  · rintro ⟨hx, hy, hxy⟩
    exact ⟨x, hx, y, ⟨hy, by simpa using hxy⟩, rfl⟩

theorem mem_enqueueArcs {c : Crossword} {x y : Variable} {p : Arc} :
    p ∈ enqueueArcs c x y ↔ p.1 ∈ c.neighbors x ∧ p.1 ≠ y ∧ p.2 = x := by
  unfold enqueueArcs
  simp only [List.mem_map, List.mem_filter]
  constructor
  · rintro ⟨z, ⟨hz, hzy⟩, heq⟩
    subst heq
    exact ⟨hz, by simpa using hzy, rfl⟩
  · rintro ⟨h1, h2, h3⟩
    exact ⟨p.1, ⟨h1, by simpa using h2⟩, by rw [← h3]⟩

/-! ### Arc consistency: the property `ac3` establishes -/

theorem noSupport_eq_false {dy : List Word} {i j : Nat} {w : Word} :
    noSupport dy i j w = false ↔
      ∃ v2 ∈ dy, w.getD i blankChar = v2.getD j blankChar := by
  unfold noSupport
  rw [decide_eq_false_iff_not]
  constructor
  · intro h
    have hpos : 0 < dy.countP (fun v2 => decide (w.getD i blankChar = v2.getD j blankChar)) :=
      Nat.pos_of_ne_zero h
    obtain ⟨v2, hv2, hp⟩ := List.countP_pos_iff.mp hpos
    exact ⟨v2, hv2, of_decide_eq_true hp⟩
  · rintro ⟨v2, hv2, hp⟩
    have hpos : 0 < dy.countP (fun v2 => decide (w.getD i blankChar = v2.getD j blankChar)) :=
      List.countP_pos_iff.mpr ⟨v2, hv2, decide_eq_true hp⟩
    omega

theorem arcOK_of_none {c : Crossword} {dom : Domains} {x y : Variable}
    (h : c.overlaps x y = none) : arcOK c dom x y := by
  intro i j hov
  rw [h] at hov
  cases hov

theorem arcOK_congr {c : Crossword} {dom dom1 : Domains} {x y : Variable}
    (hx : ∀ w ∈ dom1 x, w ∈ dom x) (hy : dom1 y = dom y)
    (h : arcOK c dom x y) : arcOK c dom1 x y := by
  intro i j hov w hw
  rw [hy]
  exact h i j hov w (hx w hw)

theorem revise_false_arcOK {c : Crossword} {dom : Domains} {x y : Variable}
    (hnd : (dom x).Nodup) (h : (revise c dom x y).2 = false) : arcOK c dom x y := by
  cases hov : c.overlaps x y with
  | none => exact arcOK_of_none hov
  | some p =>
    obtain ⟨i, j⟩ := p
    rw [revise_some hov hnd] at h
    simp only at h
    intro i' j' hov' w hw
    rw [hov] at hov'
    obtain ⟨rfl, rfl⟩ : i' = i ∧ j' = j := by
      have := Option.some.inj hov'
      exact ⟨congrArg Prod.fst this.symm, congrArg Prod.snd this.symm⟩
    simp only [List.any_eq_false] at h
    have hns := h w hw
    simp only [Bool.not_eq_true] at hns
    exact noSupport_eq_false.mp hns

/-- The revised store: `domain[x]` filtered against `domain[y]`. -/
theorem revise_true_eq {c : Crossword} {dom dom1 : Domains} {x y : Variable} {i j : Nat}
    (hov : c.overlaps x y = some (i, j)) (hnd : (dom x).Nodup)
    (hr : revise c dom x y = (dom1, true)) :
    dom1 = Function.update dom x ((dom x).filter (fun w => !noSupport (dom y) i j w)) ∧
      (dom x).any (noSupport (dom y) i j) = true := by
  rw [revise_some hov hnd] at hr
  have h1 := congrArg Prod.fst hr
  have h2 := congrArg Prod.snd hr
  simp only at h1 h2
  exact ⟨h1.symm, h2⟩

/-- After `revise(x, y)` removes words, the arc `(x, y)` itself is
consistent: every surviving word has support. -/
theorem arcOK_after_revise {c : Crossword} {dom : Domains} {x y : Variable} {i j : Nat}
    (hov : c.overlaps x y = some (i, j)) (hxy : x ≠ y) :
    arcOK c (Function.update dom x ((dom x).filter (fun w => !noSupport (dom y) i j w))) x y := by
  intro i' j' hov' w hw
  rw [hov] at hov'
  obtain ⟨rfl, rfl⟩ : i' = i ∧ j' = j := by
    have := Option.some.inj hov'
    exact ⟨congrArg Prod.fst this.symm, congrArg Prod.snd this.symm⟩
  rw [Function.update_same] at hw
  obtain ⟨hwx, hns⟩ := List.mem_filter.mp hw
  simp only [Bool.not_eq_true'] at hns
  obtain ⟨v2, hv2, heq⟩ := noSupport_eq_false.mp hns
  refine ⟨v2, ?_, heq⟩
  rw [Function.update_noteq (Ne.symm hxy)]
  exact hv2

/-- The standard AC-3 skip argument: revising `x` against `y` cannot break
the reverse arc `(y, x)`, because a word of `domain[x]` that supported some
word of `domain[y]` is itself supported by that word, hence survives. -/
theorem arcOK_skip {c : Crossword} (hwf : c.WF) {dom : Domains} {x y : Variable} {i j : Nat}
    (hov : c.overlaps x y = some (i, j)) (hxy : x ≠ y)
    (hprev : arcOK c dom y x) :
    arcOK c (Function.update dom x ((dom x).filter (fun w => !noSupport (dom y) i j w))) y x := by
  have hov' : c.overlaps y x = some (j, i) := hwf.overlaps_symm hov
  intro i' j' hov2 w hw
  rw [hov'] at hov2
  injection hov2 with hpair
  injection hpair with h1 h2
  subst h1
  subst h2
  rw [Function.update_noteq (Ne.symm hxy)] at hw
  obtain ⟨w2, hw2, heq⟩ := hprev j i hov' w hw
  refine ⟨w2, ?_, heq⟩
  rw [Function.update_same]
  refine List.mem_filter.mpr ⟨hw2, ?_⟩
  simp only [Bool.not_eq_true']
  exact noSupport_eq_false.mpr ⟨w, hw, heq.symm⟩

/-- Main invariant lemma for the AC-3 worklist loop: on a successful
completed run all pairs are arc consistent, and on a `false` result some
variable's domain is empty.  Nodup of the domains is preserved. -/
theorem ac3Loop_spec {c : Crossword} (hwf : c.WF) :
    ∀ fuel (q : List Arc) (dom : Domains) (b : Bool) (dom2 : Domains),
      (∀ v, (dom v).Nodup) →
      (∀ p ∈ q, p.1 ∈ c.vars) →
      QueueInv c dom q →
      ac3Loop c fuel q dom = some (b, dom2) →
      (∀ v, (dom2 v).Nodup) ∧
      (b = true → QueueInv c dom2 []) ∧
      (b = false → ∃ v ∈ c.vars, dom2 v = [])
  | 0, q, dom, b, dom2, _, _, _, h => by
    simp [ac3Loop] at h
  | fuel + 1, [], dom, b, dom2, hnd, _, hInv, h => by
    simp only [ac3Loop, Option.some.injEq, Prod.mk.injEq] at h
    obtain ⟨hb, hdom⟩ := h
    subst hdom
    refine ⟨hnd, fun _ => hInv, fun hbf => ?_⟩
    rw [← hb] at hbf
    cases hbf
  | fuel + 1, (x, y) :: rest, dom, b, dom2, hnd, hq, hInv, h => by
    rcases hr : revise c dom x y with ⟨dom1, flag⟩
    cases flag with
    | false =>
      simp only [ac3Loop, hr] at h
      have hdom1 : dom1 = dom := by
        have h1 : (revise c dom x y).1 = dom := revise_snd_false (hnd x) (by rw [hr])
        rw [hr] at h1
        exact h1
      rw [hdom1] at h
      have hInv' : QueueInv c dom rest := by
        intro a ha bb hbb hnotin
        by_cases hpop : (a, bb) = (x, y)
        · have h1 : a = x := congrArg Prod.fst hpop
          have h2 : bb = y := congrArg Prod.snd hpop
          rw [h1, h2]
          exact revise_false_arcOK (hnd x) (by rw [hr])
        · refine hInv a ha bb hbb (fun hmem => ?_)
          rcases List.mem_cons.mp hmem with h1 | h1
          · exact hpop h1
          · exact hnotin h1
      exact ac3Loop_spec hwf fuel rest dom b dom2 hnd
        (fun p hp => hq p (List.mem_cons_of_mem _ hp)) hInv' h
    | true =>
      simp only [ac3Loop, hr] at h
      obtain ⟨i, j, hov⟩ := @revise_snd_true_overlap c dom x y (by rw [hr])
      have hxy : x ≠ y := hwf.overlaps_ne hov
      obtain ⟨hdom1, hflag⟩ := revise_true_eq hov (hnd x) hr
      have hnd1 : ∀ v, (dom1 v).Nodup := by
        intro v
        rw [hdom1]
        by_cases hv : v = x
        · subst hv
          rw [Function.update_same]
          exact (hnd v).filter _
        · rw [Function.update_noteq hv]
          exact hnd v
      by_cases hempty : (dom1 x).length = 0
      · rw [if_pos hempty] at h
        simp only [Option.some.injEq, Prod.mk.injEq] at h
        obtain ⟨hb, hdom⟩ := h
        subst hdom
        refine ⟨hnd1, fun hbt => ?_, fun _ => ?_⟩
        · rw [← hb] at hbt
          cases hbt
        · exact ⟨x, hq (x, y) (List.mem_cons_self _ _), List.length_eq_zero.mp hempty⟩
      · rw [if_neg hempty] at h
        have hq' : ∀ p ∈ rest ++ enqueueArcs c x y, p.1 ∈ c.vars := by
          intro p hp
          rcases List.mem_append.mp hp with h1 | h1
          · exact hq p (List.mem_cons_of_mem _ h1)
          · obtain ⟨hn, _, _⟩ := mem_enqueueArcs.mp h1
            exact (Crossword.mem_neighbors.mp hn).1
        have hInv' : QueueInv c dom1 (rest ++ enqueueArcs c x y) := by
          intro a ha bb hbb hnotin
          rw [List.mem_append] at hnotin
          push_neg at hnotin
          obtain ⟨hnrest, hnenq⟩ := hnotin
          by_cases hax : a = x
          · by_cases hby : bb = y
            · rw [hax, hby, hdom1]
              exact arcOK_after_revise hov hxy
            · by_cases hbx : bb = x
              · rw [hax, hbx]
                exact arcOK_of_none (c.overlaps_self hwf x)
              · have hprev : arcOK c dom x bb := by
                  have hp := hInv a ha bb hbb (fun hmem => by
                    rcases List.mem_cons.mp hmem with h1 | h1
                    · exact hby (congrArg Prod.snd h1)
                    · exact hnrest h1)
                  rwa [hax] at hp
                rw [hax]
                refine arcOK_congr ?_ ?_ hprev
                · intro w hw
                  rw [hdom1, Function.update_same] at hw
                  exact (List.mem_filter.mp hw).1
                · rw [hdom1]
                  exact Function.update_noteq hbx _ _
          · by_cases hbx : bb = x
            · by_cases hay : a = y
              · have hprev : arcOK c dom y x := by
                  have hp := hInv a ha bb hbb (fun hmem => by
                    rcases List.mem_cons.mp hmem with h1 | h1
                    · exact hxy ((congrArg Prod.fst h1).symm.trans hay)
                    · exact hnrest h1)
                  rwa [hay, hbx] at hp
                rw [hay, hbx, hdom1]
                exact arcOK_skip hwf hov hxy hprev
              · intro i' j' hov2 w hw
                exfalso
                rw [hbx] at hov2 hnenq
                have hsym := hwf.overlaps_symm hov2
                refine hnenq (mem_enqueueArcs.mpr ⟨?_, hay, rfl⟩)
                exact Crossword.mem_neighbors.mpr ⟨ha, by rw [hsym]; rfl⟩
            · have hprev : arcOK c dom a bb := by
                refine hInv a ha bb hbb (fun hmem => ?_)
                rcases List.mem_cons.mp hmem with h1 | h1
                · exact hax (congrArg Prod.fst h1)
                · exact hnrest h1
              refine arcOK_congr ?_ ?_ hprev
              · intro w hw
                rw [hdom1] at hw
                rwa [Function.update_noteq hax] at hw
              · rw [hdom1]
                exact Function.update_noteq hbx _ _
        exact ac3Loop_spec hwf fuel (rest ++ enqueueArcs c x y) dom1 b dom2 hnd1 hq' hInv' h

theorem defaultArcs_fst_mem {c : Crossword} : ∀ p ∈ defaultArcs c, p.1 ∈ c.vars := by
  intro p hp
  rcases p with ⟨x, y⟩
  exact (mem_defaultArcs.mp hp).1

theorem queueInv_defaultArcs {c : Crossword} (hwf : c.WF) (dom : Domains) :
    QueueInv c dom (defaultArcs c) := by
  intro x hx y hy hnotin
  have hxy : x = y := by
    by_contra hne
    exact hnotin (mem_defaultArcs.mpr ⟨hx, hy, hne⟩)
  rw [hxy]
  exact arcOK_of_none (c.overlaps_self hwf y)

/-- C2, packaged: what a completed default-arcs `ac3` run guarantees. -/
theorem ac3_spec {c : Crossword} {dom : Domains} {fuel : Nat} {b : Bool} {dom2 : Domains}
    (hwf : c.WF) (hnd : ∀ v, (dom v).Nodup)
    (h : ac3 c fuel dom = some (b, dom2)) :
    (b = true → ∀ x ∈ c.vars, ∀ y ∈ c.neighbors x, ∀ i j,
        c.overlaps x y = some (i, j) →
        ∀ w ∈ dom2 x, ∃ w2 ∈ dom2 y, w.getD i blankChar = w2.getD j blankChar) ∧
    (b = false → ∃ v ∈ c.vars, dom2 v = []) := by
  obtain ⟨_, htrue, hfalse⟩ := ac3Loop_spec hwf fuel (defaultArcs c) dom b dom2 hnd
    defaultArcs_fst_mem (queueInv_defaultArcs hwf dom) h
  refine ⟨fun hb => ?_, hfalse⟩
  intro x hx y hy i j hov w hw
  have hyv : y ∈ c.vars := (Crossword.mem_neighbors.mp hy).1
  exact htrue hb x hx y hyv (by simp) i j hov w hw

theorem revise_true_shrink {c : Crossword} {dom dom1 : Domains} {x y : Variable}
    (hnd : (dom x).Nodup) (hr : revise c dom x y = (dom1, true)) :
    (dom1 x).length < (dom x).length ∧ ∀ v, (dom1 v).length ≤ (dom v).length := by
  obtain ⟨i, j, hov⟩ := @revise_snd_true_overlap c dom x y (by rw [hr])
  obtain ⟨hdom1, hflag⟩ := revise_true_eq hov hnd hr
  obtain ⟨w, hw, hns⟩ := List.any_eq_true.mp hflag
  have hlt : ((dom x).filter (fun w => !noSupport (dom y) i j w)).length < (dom x).length := by
    have hs : ((dom x).filter (fun w => !noSupport (dom y) i j w)).Sublist (dom x) :=
      List.filter_sublist (dom x)
    rcases Nat.lt_or_ge ((dom x).filter (fun w => !noSupport (dom y) i j w)).length
        ((dom x).length) with hcase | hcase
    · exact hcase
    · exfalso
      have heq := hs.eq_of_length (Nat.le_antisymm hs.length_le hcase)
      rw [← heq] at hw
      have := List.of_mem_filter hw
      rw [hns] at this
      cases this
  constructor
  · rw [hdom1, Function.update_same]
    exact hlt
  · intro v
    rw [hdom1]
    by_cases hv : v = x
    · rw [hv, Function.update_same]
      exact Nat.le_of_lt hlt
    · rw [Function.update_noteq hv]

theorem totalSize_lt {c : Crossword} {dom dom1 : Domains} {x : Variable}
    (hx : x ∈ c.vars) (hlt : (dom1 x).length < (dom x).length)
    (hle : ∀ v, (dom1 v).length ≤ (dom v).length) :
    totalSize c dom1 < totalSize c dom :=
  List.sum_lt_sum _ _ (fun v _ => hle v) ⟨x, hx, hlt⟩

theorem enqueueArcs_length_le {c : Crossword} (x y : Variable) :
    (enqueueArcs c x y).length ≤ c.vars.length := by
  unfold enqueueArcs
  rw [List.length_map]
  calc ((c.neighbors x).filter (fun z => decide (z ≠ y))).length
      ≤ (c.neighbors x).length := List.length_filter_le _ _
    _ ≤ c.vars.length := List.length_filter_le _ _

/-- Sufficient fuel for the AC-3 worklist loop: the loop cannot pop more
arcs than the initial queue plus one batch of neighbor arcs per removed
word. -/
theorem ac3Loop_fuel_sufficient (c : Crossword) :
    ∀ fuel (q : List Arc) (dom : Domains),
      (∀ v, (dom v).Nodup) →
      (∀ p ∈ q, p.1 ∈ c.vars) →
      q.length + totalSize c dom * (c.vars.length + 1) + 1 ≤ fuel →
      (ac3Loop c fuel q dom).isSome
  | 0, q, dom, _, _, hfuel => absurd hfuel (Nat.not_succ_le_zero _)
  | fuel + 1, [], dom, _, _, _ => by simp [ac3Loop]
  | fuel + 1, (x, y) :: rest, dom, hnd, hq, hfuel => by
    rcases hr : revise c dom x y with ⟨dom1, flag⟩
    cases flag with
    | false =>
      simp only [ac3Loop, hr]
      have hdom1 : dom1 = dom := by
        have h1 : (revise c dom x y).1 = dom := revise_snd_false (hnd x) (by rw [hr])
        rw [hr] at h1
        exact h1
      rw [hdom1]
      refine ac3Loop_fuel_sufficient c fuel rest dom hnd
        (fun p hp => hq p (List.mem_cons_of_mem _ hp)) ?_
      have hlen : ((x, y) :: rest).length = rest.length + 1 := rfl
      rw [hlen] at hfuel
      generalize totalSize c dom * (c.vars.length + 1) = t at hfuel ⊢
      omega
    | true =>
      simp only [ac3Loop, hr]
      by_cases hempty : (dom1 x).length = 0
      · rw [if_pos hempty]
        simp
      · rw [if_neg hempty]
        obtain ⟨hlt, hle⟩ := revise_true_shrink (hnd x) hr
        have hnd1 : ∀ v, (dom1 v).Nodup := by
          obtain ⟨i, j, hov⟩ := @revise_snd_true_overlap c dom x y (by rw [hr])
          obtain ⟨hdom1, _⟩ := revise_true_eq hov (hnd x) hr
          intro v
          rw [hdom1]
          by_cases hv : v = x
          · rw [hv, Function.update_same]
            exact (hnd x).filter _
          · rw [Function.update_noteq hv]
            exact hnd v
        have hq1 : ∀ p ∈ rest ++ enqueueArcs c x y, p.1 ∈ c.vars := by
          intro p hp
          rcases List.mem_append.mp hp with h1 | h1
          · exact hq p (List.mem_cons_of_mem _ h1)
          · obtain ⟨hn, _, _⟩ := mem_enqueueArcs.mp h1
            exact (Crossword.mem_neighbors.mp hn).1
        refine ac3Loop_fuel_sufficient c fuel (rest ++ enqueueArcs c x y) dom1 hnd1 hq1 ?_
        have hx : x ∈ c.vars := hq (x, y) (List.mem_cons_self _ _)
        have hS : totalSize c dom1 + 1 ≤ totalSize c dom := totalSize_lt hx hlt hle
        have hkey : totalSize c dom1 * (c.vars.length + 1) + (c.vars.length + 1)
            ≤ totalSize c dom * (c.vars.length + 1) := by
          have h1 : totalSize c dom1 * (c.vars.length + 1) + (c.vars.length + 1)
              = (totalSize c dom1 + 1) * (c.vars.length + 1) := by
            rw [Nat.succ_mul]
          rw [h1]
          exact Nat.mul_le_mul_right _ hS
        have henq : (enqueueArcs c x y).length ≤ c.vars.length := enqueueArcs_length_le x y
        have hlen : ((x, y) :: rest).length = rest.length + 1 := rfl
        rw [hlen] at hfuel
        rw [List.length_append]
        generalize totalSize c dom * (c.vars.length + 1) = t1 at hfuel hkey
        generalize totalSize c dom1 * (c.vars.length + 1) = t2 at hkey ⊢
        omega

/-- On a fully arc-consistent store, `revise` is a no-op. -/
theorem revise_noop_of_arcOK {c : Crossword} {dom : Domains} {x y : Variable}
    (hnd : (dom x).Nodup) (hok : arcOK c dom x y) :
    revise c dom x y = (dom, false) := by
  cases hov : c.overlaps x y with
  | none => exact revise_none hov
  | some p =>
    obtain ⟨i, j⟩ := p
    rw [revise_some hov hnd]
    have hall : ∀ w ∈ dom x, noSupport (dom y) i j w = false := by
      intro w hw
      exact noSupport_eq_false.mpr (hok i j hov w hw)
    have h1 : (dom x).filter (fun w => !noSupport (dom y) i j w) = dom x := by
      refine List.filter_eq_self.mpr (fun w hw => ?_)
      rw [hall w hw]
      rfl
    have h2 : (dom x).any (noSupport (dom y) i j) = false := by
      rw [List.any_eq_false]
      intro w hw
      rw [hall w hw]
      exact Bool.false_ne_true
    rw [h1, h2, Function.update_eq_self]

/-- If every queued arc revises to a no-op, the loop drains the queue and
returns `true` with the store untouched. -/
theorem ac3Loop_drain {c : Crossword} {dom : Domains} :
    ∀ (q : List Arc) (fuel : Nat),
      (∀ p ∈ q, revise c dom p.1 p.2 = (dom, false)) →
      q.length < fuel →
      ac3Loop c fuel q dom = some (true, dom)
  | [], fuel, _, hfuel => by
    cases fuel with
    | zero => cases hfuel
    | succ n => simp [ac3Loop]
  | (x, y) :: rest, fuel, hno, hfuel => by
    cases fuel with
    | zero => cases hfuel
    | succ n =>
      have hr : revise c dom x y = (dom, false) := hno (x, y) (List.mem_cons_self _ _)
      simp only [ac3Loop, hr]
      exact ac3Loop_drain rest n (fun p hp => hno p (List.mem_cons_of_mem _ hp))
        (Nat.lt_of_succ_lt_succ hfuel)

/-- C8, packaged: immediately re-running `ac3` after a successful run makes
zero removals and returns `true` with the identical store. -/
theorem ac3_idem {c : Crossword} {dom : Domains} {fuel : Nat} {dom2 : Domains}
    (hwf : c.WF) (hnd : ∀ v, (dom v).Nodup)
    (h : ac3 c fuel dom = some (true, dom2)) :
    ∀ fuel2, (defaultArcs c).length < fuel2 →
      ac3 c fuel2 dom2 = some (true, dom2) := by
  obtain ⟨hnd2, htrue, _⟩ := ac3Loop_spec hwf fuel (defaultArcs c) dom true dom2 hnd
    defaultArcs_fst_mem (queueInv_defaultArcs hwf dom) h
  have hInv : QueueInv c dom2 [] := htrue rfl
  intro fuel2 hf2
  refine ac3Loop_drain (defaultArcs c) fuel2 ?_ hf2
  intro p hp
  rcases p with ⟨x, y⟩
  obtain ⟨hx, hy, hxy⟩ := mem_defaultArcs.mp hp
  exact revise_noop_of_arcOK (hnd2 x) (hInv x hx y hy (List.not_mem_nil _))

theorem foldl_update_eval (f : Variable → List Word → List Word) :
    ∀ (l : List Variable), l.Nodup → ∀ (d : Domains) (v : Variable),
      (l.foldl (fun d x => Function.update d x (f x (d x))) d) v
        = if v ∈ l then f v (d v) else d v
  | [], _, d, v => by simp
  | x :: l, hnd, d, v => by
    have hstep : ((x :: l).foldl (fun d x => Function.update d x (f x (d x))) d)
        = l.foldl (fun d x => Function.update d x (f x (d x)))
            (Function.update d x (f x (d x))) := rfl
    rw [hstep, foldl_update_eval f l hnd.of_cons _ v]
    by_cases hv : v = x
    · subst hv
      have hnot : v ∉ l := (List.nodup_cons.mp hnd).1
      rw [if_neg hnot, if_pos (List.mem_cons_self v l), Function.update_same]
    · rw [Function.update_noteq hv]
      by_cases hvl : v ∈ l
      · rw [if_pos hvl, if_pos (List.mem_cons_of_mem _ hvl)]
      · rw [if_neg hvl, if_neg (by simp [hv, hvl])]

theorem enforce_node_consistency_eval {c : Crossword} {dom : Domains}
    (hv : c.vars.Nodup) (hnd : ∀ v, (dom v).Nodup) {v : Variable} (hvmem : v ∈ c.vars) :
    enforce_node_consistency c dom v
      = (dom v).filter (fun w => decide (w.length = v.length)) := by
  unfold enforce_node_consistency
  rw [foldl_update_eval encStep c.vars hv dom v, if_pos hvmem]
  have hfold : encStep v (dom v)
      = eraseFold (fun w => decide (¬ w.length = v.length)) (dom v) (dom v) := rfl
  rw [hfold, eraseFold_self _ _ (hnd v)]
  refine List.filter_congr (fun w _ => ?_)
  by_cases hw : w.length = v.length
  · simp [hw]
  · simp [hw]

theorem lookupA_eq_some {a : Assignment} (hk : (a.map (fun p => p.1)).Nodup)
    {v : Variable} {w : Word} :
    lookupA a v = some w ↔ (v, w) ∈ a := by
  constructor
  · intro h
    unfold lookupA at h
    cases hf : a.find? (fun p => decide (p.1 = v)) with
    | none => rw [hf] at h; cases h
    | some p =>
      rw [hf] at h
      have hkey : p.1 = v := by simpa using List.find?_some hf
      have hval : p.2 = w := by simpa using h
      have hmem := List.mem_of_find?_eq_some hf
      have hpw : p = (v, w) := by rw [← hkey, ← hval]
      rwa [hpw] at hmem
  · intro hmem
    unfold lookupA
    have hex : (a.find? (fun p => decide (p.1 = v))).isSome := by
      rw [List.find?_isSome]
      exact ⟨(v, w), hmem, by simp⟩
    cases hf : a.find? (fun p => decide (p.1 = v)) with
    | none => rw [hf] at hex; cases hex
    | some p =>
      have hkey : p.1 = v := by simpa using List.find?_some hf
      have hpm := List.mem_of_find?_eq_some hf
      have hpw : p = (v, w) :=
        List.inj_on_of_nodup_map hk hpm hmem (by rw [hkey])
      rw [hpw]
      simp

theorem lookupA_eq_none {a : Assignment} {v : Variable} :
    lookupA a v = none ↔ ∀ w, (v, w) ∉ a := by
  unfold lookupA
  cases hf : a.find? (fun p => decide (p.1 = v)) with
  | none =>
    simp only [Option.map_none', true_iff]
    intro w hmem
    have := List.find?_eq_none.mp hf (v, w) hmem
    simp at this
  | some p =>
    simp only [Option.map_some']
    constructor
    · intro h; cases h
    · intro h
      exfalso
      have hkey : p.1 = v := by simpa using List.find?_some hf
      have hpm := List.mem_of_find?_eq_some hf
      exact h p.2 (by rw [← hkey]; exact hpm)

theorem count_all_one_iff_nodup (l : List Word) :
    (l.all (fun w => decide (l.countP (fun w2 => decide (w2 = w)) = 1)) = true) ↔ l.Nodup := by
  have hcv : ∀ w : Word, l.countP (fun w2 => decide (w2 = w))
      = @List.count Word (@instBEqOfDecidableEq Word _) w l := fun w => rfl
  rw [List.all_eq_true]
  constructor
  · intro h
    rw [List.nodup_iff_count_le_one]
    intro w
    by_cases hw : w ∈ l
    · have h2 := of_decide_eq_true (h w hw)
      rw [hcv w] at h2
      omega
    · rw [← hcv w]
      have hz : l.countP (fun w2 => decide (w2 = w)) = 0 := by
        rw [List.countP_eq_zero]
        intro a ha hdec
        exact hw ((of_decide_eq_true hdec) ▸ ha)
      omega
  · intro h w hw
    refine decide_eq_true ?_
    rw [hcv w]
    have h1 := List.nodup_iff_count_le_one.mp h w
    have h2 : 0 < l.countP (fun w2 => decide (w2 = w)) :=
      List.countP_pos_iff.mpr ⟨w, hw, decide_eq_true rfl⟩
    rw [hcv w] at h2
    omega

/-- C6: `consistent(assignment)` returns true iff (a) no two entries map
to the same word, (b) every assigned word's length equals its variable's
length, and (c) assigned neighbor pairs agree at their overlap offsets. -/
theorem consistent_iff (c : Crossword) (a : Assignment)
    (hk : (a.map (fun p => p.1)).Nodup) :
    consistent c a = true ↔
      ((a.map (fun p => p.2)).Nodup ∧
       (∀ p ∈ a, p.1.length = p.2.length) ∧
       (∀ p ∈ a, ∀ q ∈ a, q.1 ∈ c.neighbors p.1 →
         ∀ i j, c.overlaps p.1 q.1 = some (i, j) →
           p.2.getD i blankChar = q.2.getD j blankChar)) := by
  unfold consistent
  rw [Bool.and_eq_true, Bool.and_eq_true]
  rw [count_all_one_iff_nodup]
  constructor
  · rintro ⟨⟨h1, h2⟩, h3⟩
    refine ⟨h1, ?_, ?_⟩
    · intro p hp
      exact of_decide_eq_true (List.all_eq_true.mp h2 p hp)
    · intro p hp q hq hn i j hov
      have hin := List.all_eq_true.mp (List.all_eq_true.mp h3 p hp) q.1 hn
      have hl : lookupA a q.1 = some q.2 := (lookupA_eq_some hk).mpr hq
      simp only [hl, hov] at hin
      exact of_decide_eq_true hin
  · rintro ⟨h1, h2, h3⟩
    refine ⟨⟨h1, ?_⟩, ?_⟩
    · rw [List.all_eq_true]
      intro p hp
      exact decide_eq_true (h2 p hp)
    · rw [List.all_eq_true]
      intro p hp
      rw [List.all_eq_true]
      intro n hn
      cases hl : lookupA a n with
      | none => simp [hl]
      | some w2 =>
        have hmem : (n, w2) ∈ a := (lookupA_eq_some hk).mp hl
        cases hov : c.overlaps p.1 n with
        | none => simp [hl, hov]
        | some pr =>
          obtain ⟨i, j⟩ := pr
          simp only [hl, hov]
          exact decide_eq_true (h3 p hp (n, w2) hmem hn i j hov)

/-! ### Claim theorems and witnesses -/

theorem domA_nodup : ∀ v, (domA v).Nodup := fun _ => by
  show wordsA.Nodup
  decide

/-- C7: after `enforce_node_consistency()`, every word remaining in
`domain[v]` has length `v.length`, every right-length word of the old
domain is retained, and nothing new appears. -/
theorem enforce_node_consistency_spec (c : Crossword) (dom : Domains)
    (hv : c.vars.Nodup) (hnd : ∀ v, (dom v).Nodup) :
    ∀ v ∈ c.vars,
      (∀ w ∈ enforce_node_consistency c dom v, w.length = v.length ∧ w ∈ dom v) ∧
      (∀ w ∈ dom v, w.length = v.length → w ∈ enforce_node_consistency c dom v) := by
  intro v hvm
  rw [enforce_node_consistency_eval hv hnd hvm]
  constructor
  · intro w hw
    obtain ⟨h1, h2⟩ := List.mem_filter.mp hw
    exact ⟨of_decide_eq_true h2, h1⟩
  · intro w hw hlen
    exact List.mem_filter.mpr ⟨hw, decide_eq_true hlen⟩

theorem enforce_node_consistency_spec_witness :
    cA.vars.Nodup ∧ (∀ v, (domA v).Nodup) ∧
    (∀ v ∈ cA.vars,
      (∀ w ∈ enforce_node_consistency cA domA v, w.length = v.length ∧ w ∈ domA v) ∧
      (∀ w ∈ domA v, w.length = v.length → w ∈ enforce_node_consistency cA domA v)) :=
  ⟨by decide, domA_nodup,
    enforce_node_consistency_spec cA domA (by decide) (domA_nodup)⟩

theorem ac3_spec_witness :
    cA.WF ∧ (∀ v, (domA v).Nodup) ∧
    ((true = true → ∀ x ∈ cA.vars, ∀ y ∈ cA.neighbors x, ∀ i j,
        cA.overlaps x y = some (i, j) →
        ∀ w ∈ domA2 x, ∃ w2 ∈ domA2 y, w.getD i blankChar = w2.getD j blankChar) ∧
     (true = false → ∃ v ∈ cA.vars, domA2 v = [])) :=
  ⟨by decide, domA_nodup,
    ac3_spec (by decide) (domA_nodup) (rfl : ac3 cA 20 domA = some (true, domA2))⟩

theorem ac3_idem_witness :
    cA.WF ∧ (∀ v, (domA v).Nodup) ∧ ac3 cA 3 domA2 = some (true, domA2) :=
  ⟨by decide, domA_nodup,
    ac3_idem (by decide) (domA_nodup) (rfl : ac3 cA 20 domA = some (true, domA2)) 3
      (by decide)⟩

/-- C9: the AC-3 worklist loop terminates on every finite input: the
explicit fuel bound `ac3Bound` (initial queue length plus one batch of
neighbor arcs per removable word) always suffices for the loop to finish. -/
theorem ac3_terminates (c : Crossword) (dom : Domains) (hnd : ∀ v, (dom v).Nodup) :
    ∀ fuel, ac3Bound c dom ≤ fuel → (ac3 c fuel dom).isSome := by
  intro fuel hf
  refine ac3Loop_fuel_sufficient c fuel (defaultArcs c) dom hnd defaultArcs_fst_mem ?_
  unfold ac3Bound at hf
  exact hf

theorem ac3_terminates_witness :
    (∀ v, (domA v).Nodup) ∧ ac3Bound cA domA ≤ 21 ∧ (ac3 cA 21 domA).isSome :=
  ⟨domA_nodup, by decide, ac3_terminates cA domA (domA_nodup) 21 (by decide)⟩

theorem consistent_iff_witness :
    (asgA.map (fun p => p.1)).Nodup ∧
    (consistent cA asgA = true ↔
      ((asgA.map (fun p => p.2)).Nodup ∧
       (∀ p ∈ asgA, p.1.length = p.2.length) ∧
       (∀ p ∈ asgA, ∀ q ∈ asgA, q.1 ∈ cA.neighbors p.1 →
         ∀ i j, cA.overlaps p.1 q.1 = some (i, j) →
           p.2.getD i blankChar = q.2.getD j blankChar))) :=
  ⟨by decide, consistent_iff cA asgA (by decide)⟩

/-- C1 (code bug): on a structure with two disjoint slots tied at the
minimum domain size, `select_unassigned_variable` returns `None`, the
source passes it to `order_domain_values`, and `solve` raises `KeyError`
instead of returning an assignment or `None` — even though a solution
exists.  With zero variables the empty assignment is returned as claimed. -/
theorem solve_keyerror_crash :
    solve cC 50 = Except.error "KeyError" ∧ solve cEmpty 5 = Except.ok (some []) :=
  ⟨rfl, rfl⟩

/-- C3 (code bug): `order_domain_values` counts the neighbor's DISAGREEING
words as `options_after`, so its "eliminations" score is really the number
of agreeing (surviving) words.  Here `'a'` eliminates 0 words of the
unassigned neighbor's domain and `'b'` eliminates 1, so ascending
elimination order is `[a, b]` — yet the source returns `[b, a]`. -/
theorem order_domain_values_reversed :
    order_domain_values cD domD vD1 [] = [['b'], ['a']] ∧
    (domD vD2).countP
      (fun o => decide (¬ (['a'] : Word).getD 0 blankChar = o.getD 0 blankChar)) = 0 ∧
    (domD vD2).countP
      (fun o => decide (¬ (['b'] : Word).getD 0 blankChar = o.getD 0 blankChar)) = 1 :=
  ⟨rfl, rfl, rfl⟩

/-- C4 (code bug): calling `ac3` with an explicit arc list never processes
it — line 175 binds `queue` to the `deque` class itself (missing call
parentheses) and the first `queue.append` raises `TypeError`. -/
theorem ac3_explicit_arcs_raise :
    ac3WithArcs cA 10 (some [(vA1, vA2)]) domA = Except.error "TypeError" :=
  rfl

/-- C5 (code bug): with both (unassigned) variables tied at the minimum
domain size and both of degree zero, the tie-break loop never beats its
`n = 0, var = None` start and `select_unassigned_variable` returns `None`
rather than an unassigned variable. -/
theorem select_unassigned_none :
    select_unassigned_variable cC domC [] = none ∧
    (cC.vars.filter (fun x => !isAssigned [] x)).length = 2 :=
  ⟨rfl, rfl⟩

/-- C10: `ac3()` reports `false` only when a `revise` call empties a
domain; a domain already empty on entry is not detected.  On `cC` with the
neighborless `vC1` emptied beforehand, `ac3()` returns `true` with the
empty domain still present. -/
theorem ac3_empty_domain_undetected :
    ac3 cC 10 domE = some (true, domE) ∧ domE vC1 = [] ∧ cC.neighbors vC1 = [] :=
  ⟨rfl, rfl, rfl⟩
